import Mathlib

/-
Shallow embedding of the technical-indicator library (src/src/index.ts).

Conventions of the embedding:
- JavaScript numbers are modelled by `JSNum`: an exact rational together with
  the IEEE special values +Infinity, -Infinity and NaN.  Rounding of doubles
  is idealised away (finite arithmetic is exact) and the sign of zero is not
  tracked (JS -0 is identified with 0); none of the verified properties
  depends on rounding or on the sign of zero.
- An array read `a[i]` that can fall out of range in the modelled code flows
  directly into arithmetic or into an order comparison, where the JS value
  `undefined` behaves exactly like NaN; such reads are modelled with a NaN
  default (`jsGetDQ`, `jsGetDJ`).
- `Array.prototype.slice` resolves its indices by counting negative indices
  from the end and clamping into [0, length]; `jsResolveIndex` models this.
- Code that can throw (`reduce` of an empty array without an initial value,
  and the explicit guard of `movingAverage`) returns `Except JsError`.
- `Math.sqrt` is not rational-valued, so `bollingerBands` receives the square
  root as an explicit function parameter `sqrt`; the theorems about it hold
  for every interpretation of that parameter (with a nonnegativity
  assumption exactly where the stated property needs one).
- Input series are taken to be finite numbers (lists of `ℚ`), following the
  data model of the specification; all NaN/Infinity behaviour that the code
  itself can create is modelled faithfully through `JSNum`.
-/

/-- Model of a JavaScript number: an exact rational or one of the IEEE
special values. -/
inductive JSNum where
  | fin (q : ℚ)
  | inf
  | ninf
  | nan
deriving DecidableEq

namespace JSNum

/-- IEEE negation on the model. -/
def neg : JSNum → JSNum
  | .fin q => .fin (-q)
  | .inf => .ninf
  | .ninf => .inf
  | .nan => .nan

/-- IEEE addition on the model (exact on finite values). -/
def add : JSNum → JSNum → JSNum
  | .nan, _ => .nan
  | _, .nan => .nan
  | .fin a, .fin b => .fin (a + b)
  | .fin _, .inf => .inf
  | .fin _, .ninf => .ninf
  | .inf, .fin _ => .inf
  | .ninf, .fin _ => .ninf
  | .inf, .inf => .inf
  | .ninf, .ninf => .ninf
  | .inf, .ninf => .nan
  | .ninf, .inf => .nan

/-- IEEE subtraction: `a - b = a + (-b)` exactly. -/
def sub (a b : JSNum) : JSNum := a.add b.neg

/-- IEEE multiplication on the model. -/
def mul : JSNum → JSNum → JSNum
  | .nan, _ => .nan
  | _, .nan => .nan
  | .fin a, .fin b => .fin (a * b)
  | .fin a, .inf => if 0 < a then .inf else if a < 0 then .ninf else .nan
  | .fin a, .ninf => if 0 < a then .ninf else if a < 0 then .inf else .nan
  | .inf, .fin b => if 0 < b then .inf else if b < 0 then .ninf else .nan
  | .ninf, .fin b => if 0 < b then .ninf else if b < 0 then .inf else .nan
  | .inf, .inf => .inf
  | .inf, .ninf => .ninf
  | .ninf, .inf => .ninf
  | .ninf, .ninf => .inf

/-- IEEE division on the model (division of a nonzero finite value by zero
gives a signed infinity, `0/0` gives NaN; the zero divisor is treated as
+0, signed zeros not being tracked). -/
def div : JSNum → JSNum → JSNum
  | .nan, _ => .nan
  | _, .nan => .nan
  | .fin a, .fin b =>
      if b = 0 then (if 0 < a then .inf else if a < 0 then .ninf else .nan)
      else .fin (a / b)
  | .fin _, .inf => .fin 0
  | .fin _, .ninf => .fin 0
  | .inf, .fin b => if 0 ≤ b then .inf else .ninf
  | .ninf, .fin b => if 0 ≤ b then .ninf else .inf
  | .inf, .inf => .nan
  | .inf, .ninf => .nan
  | .ninf, .inf => .nan
  | .ninf, .ninf => .nan

/-- `Math.abs` on the model. -/
def abs : JSNum → JSNum
  | .fin q => .fin |q|
  | .inf => .inf
  | .ninf => .inf
  | .nan => .nan

/-- The JS `<` comparison as a boolean (false whenever NaN is involved). -/
def blt : JSNum → JSNum → Bool
  | .nan, _ => false
  | _, .nan => false
  | .fin a, .fin b => decide (a < b)
  | .fin _, .inf => true
  | .fin _, .ninf => false
  | .inf, _ => false
  | .ninf, .ninf => false
  | .ninf, _ => true

end JSNum

/-- Resolution of a slice index by `Array.prototype.slice`: a negative index
counts from the end, and the result is clamped into `[0, len]`. -/
def jsResolveIndex (len : ℕ) (i : ℤ) : ℕ :=
  if i < 0 then ((len : ℤ) + i).toNat else min i.toNat len

/-- `xs.slice(start)` with JS index semantics. -/
def jsSlice1 (xs : List α) (start : ℤ) : List α :=
  xs.drop (jsResolveIndex xs.length start)

/-- `xs.slice(start, stop)` with JS index semantics. -/
def jsSlice (xs : List α) (start stop : ℤ) : List α :=
  (xs.drop (jsResolveIndex xs.length start)).take
    (jsResolveIndex xs.length stop - jsResolveIndex xs.length start)

/-- `xs[i]` for a possibly out-of-range integer index, in a position where
the resulting `undefined` would behave as NaN. -/
def jsGetDQ (xs : List ℚ) (i : ℤ) : JSNum :=
  if h : 0 ≤ i ∧ i.toNat < xs.length then .fin (xs.get ⟨i.toNat, h.2⟩) else .nan

/-- `xs[i]` on an array of already-computed JS numbers, NaN when out of
range (the `undefined` read flows into arithmetic). -/
def jsGetDJ (xs : List JSNum) (i : ℕ) : JSNum :=
  xs.getD i .nan

/-- The two ways the modelled code can throw: the explicit guard of
`movingAverage`, and `Array.prototype.reduce` applied without an initial
value to an empty array (a TypeError in JS). -/
inductive JsError where
  | notEnoughData
  | reduceEmpty
deriving DecidableEq

/--
`movingAverage` from src/src/index.ts:

  if (data.length < N) throw new Error("Not enough data points ...");
  const sum = data.slice(data.length - N).reduce((acc, cur) => acc + cur);
  return sum / N;

The `reduce` has no initial value, so an empty slice (which happens exactly
when `N ≤ 0`, the guard having passed) throws a TypeError.
-/
def movingAverage (data : List ℚ) (N : ℤ) : Except JsError ℚ :=
  if (data.length : ℤ) < N then .error .notEnoughData
  else
    match jsSlice1 data ((data.length : ℤ) - N) with
    | [] => .error .reduceEmpty
    | x :: xs => .ok ((xs.foldl (· + ·) x) / (N : ℚ))

/--
Loop body of `simpleMovingAverage`:

  for (let i = 0; i < closePrices.length; i++) {
    sum += closePrices[i];
    if (i >= n) { sum -= closePrices[i - n]; sma.push(sum / n); }
  }

`r` is the number of iterations still to run (`closePrices.length - i` at
the top call), which makes the recursion structural.  The read
`closePrices[i - n]` can fall out of range when `n` is negative or larger
than `i`; the resulting `undefined` flows into the subtraction, hence the
NaN-defaulted read.
-/
def smaGo (closePrices : List ℚ) (n : ℤ) : ℕ → ℕ → JSNum → List JSNum
  | _, 0, _ => []
  | i, r + 1, sum =>
      let sum1 := sum.add (jsGetDQ closePrices i)
      if (i : ℤ) ≥ n then
        let sum2 := sum1.sub (jsGetDQ closePrices ((i : ℤ) - n))
        sum2.div (.fin (n : ℚ)) :: smaGo closePrices n (i + 1) r sum2
      else smaGo closePrices n (i + 1) r sum1

/-- `simpleMovingAverage` from src/src/index.ts. -/
def simpleMovingAverage (closePrices : List ℚ) (n : ℤ) : List JSNum :=
  smaGo closePrices n 0 closePrices.length (.fin 0)

/--
`MAD` from src/src/index.ts: for each `i` with `0 ≤ i ≤ numbers.length -
windowSize`, take `subset = numbers.slice(i, i + windowSize)`, its mean
(`reduce(+, 0) / windowSize`), the absolute deviations from the mean, and
their mean.  The loop has no cross-iteration state, so it is a map over the
index range; the number of iterations is `numbers.length - windowSize + 1`
clamped at zero.
-/
def MAD (numbers : List ℚ) (windowSize : ℤ) : List JSNum :=
  (List.range ((numbers.length : ℤ) - windowSize + 1).toNat).map fun (i : ℕ) =>
    let subset := jsSlice numbers (i : ℤ) ((i : ℤ) + windowSize)
    let avg := JSNum.div (.fin (subset.foldl (· + ·) 0)) (.fin (windowSize : ℚ))
    let deviations := subset.map fun value => (JSNum.sub (.fin value) avg).abs
    JSNum.div (deviations.foldl JSNum.add (.fin 0)) (.fin (windowSize : ℚ))

/-- Result record of `bollingerBands`. -/
structure BollingerBandsResult where
  upperBand : JSNum
  middleBand : JSNum
  lowerBand : JSNum
deriving DecidableEq

/--
`bollingerBands` from src/src/index.ts.  `Math.sqrt` is passed in as the
parameter `sqrt` (see the header comment).  For `i < period - 1` the code
pushes a record of three NaN placeholders; otherwise it takes the window
`data.slice(i - period + 1, i + 1)`, its mean, its population variance and
standard deviation.  The arithmetic of the main branch is on finite inputs;
a nonpositive `period` (excluded by every claim about this function) would
make JS produce NaN where this rational model produces division by zero.
-/
def bollingerBands (sqrt : ℚ → ℚ) (data : List ℚ) (period : ℤ)
    (deviation : ℚ) : List BollingerBandsResult :=
  (List.range data.length).map fun (i : ℕ) =>
    if (i : ℤ) < period - 1 then
      { upperBand := .nan, middleBand := .nan, lowerBand := .nan }
    else
      let slice := jsSlice data ((i : ℤ) - period + 1) ((i : ℤ) + 1)
      let mean := (slice.foldl (· + ·) 0) / (period : ℚ)
      let variance := (slice.foldl (fun acc val => acc + (val - mean) ^ 2) 0) / (period : ℚ)
      let stdDev := sqrt variance
      { upperBand := .fin (mean + deviation * stdDev)
        middleBand := .fin mean
        lowerBand := .fin (mean - deviation * stdDev) }

/-- Options record of `rsi`. -/
structure RSIOptions where
  period : ℤ
  values : List ℚ

/-- `calculateAverage` from src/src/index.ts: `reduce(+, 0) / length`
(an empty input gives `0 / 0`, i.e. NaN). -/
def calculateAverage (values : List ℚ) : JSNum :=
  JSNum.div (.fin (values.foldl (· + ·) 0)) (.fin (values.length : ℚ))

/-- The consecutive deltas `values[i] - values[i-1]` built by `rsi`. -/
def rsiDeltas (values : List ℚ) : List ℚ :=
  (List.range (values.length - 1)).map fun i => values.getD (i + 1) 0 - values.getD i 0

/-- The gains series of `rsi`: the positive part of each delta. -/
def rsiGains (values : List ℚ) : List ℚ :=
  (rsiDeltas values).map fun delta => if delta > 0 then delta else 0

/-- The losses series of `rsi`: the absolute value of each negative delta. -/
def rsiLosses (values : List ℚ) : List ℚ :=
  (rsiDeltas values).map fun delta => if delta < 0 then |delta| else 0

/-- The seed `avgGain` of `rsi`: unweighted average of the first `period`
gains. -/
def rsiSeedAvgGain (options : RSIOptions) : JSNum :=
  calculateAverage (jsSlice (rsiGains options.values) 0 options.period)

/-- The seed `avgLoss` of `rsi`: unweighted average of the first `period`
losses. -/
def rsiSeedAvgLoss (options : RSIOptions) : JSNum :=
  calculateAverage (jsSlice (rsiLosses options.values) 0 options.period)

/-- The seed `rs = avgGain / avgLoss` of `rsi`. -/
def rsiSeedRs (options : RSIOptions) : JSNum :=
  (rsiSeedAvgGain options).div (rsiSeedAvgLoss options)

/--
Loop body of `rsi`:

  for (let i = period; i < values.length; i++) {
    const delta = deltas[i - 1];
    const gain = delta > 0 ? delta : 0;
    const loss = delta < 0 ? Math.abs(delta) : 0;
    avgGain = (avgGain * (period - 1) + gain) / period;
    avgLoss = (avgLoss * (period - 1) + loss) / period;
    rs = avgGain / avgLoss;
    rsi.push(100 - 100 / (1 + rs));
  }

`i` is kept as an integer (the loop can start at a nonpositive `period`);
`r` counts the remaining iterations, `(values.length - period).toNat` at
the top call.
-/
def rsiGo (deltas : List ℚ) (period : ℤ) : ℤ → ℕ → JSNum → JSNum → List JSNum
  | _, 0, _, _ => []
  | i, r + 1, avgGain, avgLoss =>
      let delta := jsGetDQ deltas (i - 1)
      let gain := if JSNum.blt (.fin 0) delta then delta else .fin 0
      let loss := if JSNum.blt delta (.fin 0) then delta.abs else .fin 0
      let avgGain1 := ((avgGain.mul (.fin ((period : ℚ) - 1))).add gain).div (.fin (period : ℚ))
      let avgLoss1 := ((avgLoss.mul (.fin ((period : ℚ) - 1))).add loss).div (.fin (period : ℚ))
      let rs := avgGain1.div avgLoss1
      ((JSNum.fin 100).sub ((JSNum.fin 100).div ((JSNum.fin 1).add rs)))
        :: rsiGo deltas period (i + 1) r avgGain1 avgLoss1

/-- `rsi` from src/src/index.ts: the seed RSI value followed by the
Wilder-smoothed loop values. -/
def rsi (options : RSIOptions) : List JSNum :=
  let deltas := rsiDeltas options.values
  let avgGain := rsiSeedAvgGain options
  let avgLoss := rsiSeedAvgLoss options
  let rs := avgGain.div avgLoss
  ((JSNum.fin 100).sub ((JSNum.fin 100).div ((JSNum.fin 1).add rs)))
    :: rsiGo deltas options.period options.period
        (((options.values.length : ℤ) - options.period).toNat) avgGain avgLoss

/-- OHLCV candle record (the `time` field of the source is a `Date`,
modelled as a numeric timestamp; no verified property reads it). -/
structure Candle where
  time : ℚ
  openPrice : ℚ
  high : ℚ
  low : ℚ
  close : ℚ
  volume : ℚ
deriving DecidableEq

/-- A candle extended with the synthetic `macdLine` field attached by
`macd` (`type CandleWithMacdLine = Candle & { macdLine: number }`).  The
attached value is an already-computed JS number. -/
structure CandleWithMacdLine extends Candle where
  macdLine : JSNum
deriving DecidableEq

/--
Loop body of `ema`:

  for (let i = period; i < prices.length; i++) {
    ema = prices[i] * (2 / (period + 1)) + ema * (1 - 2 / (period + 1));
  }

`r` counts the remaining iterations.
-/
def emaGo (prices : List JSNum) (period : ℤ) : ℤ → ℕ → JSNum → List JSNum
  | _, 0, _ => []
  | i, r + 1, e =>
      let alpha := (JSNum.fin 2).div (.fin ((period : ℚ) + 1))
      let e1 := ((jsGetDJ prices i.toNat).mul alpha).add (e.mul ((JSNum.fin 1).sub alpha))
      e1 :: emaGo prices period (i + 1) r e1

/--
`ema` from src/src/index.ts.  `key` (a `keyof CandleWithMacdLine` in the
source) is modelled as the corresponding field projection; the seed is
`prices.slice(0, period).reduce((a, b) => a + b) / period`, whose `reduce`
throws on an empty slice.
-/
def ema (candles : List CandleWithMacdLine) (period : ℤ)
    (key : CandleWithMacdLine → JSNum) : Except JsError (List JSNum) :=
  let prices := candles.map key
  match jsSlice prices 0 period with
  | [] => .error .reduceEmpty
  | p :: ps =>
      let seed := (ps.foldl JSNum.add p).div (.fin (period : ℚ))
      .ok (seed :: emaGo prices period period (((prices.length : ℤ) - period).toNat) seed)

/-- The macd line computed by `macd` before the signal line:

  const shortEMAValues = shortEMA.slice(longEMA.length - shortEMA.length);
  const longEMAValues = longEMA.slice(longEMA.length - shortEMA.length);
  const macdLine = shortEMAValues.map((ema, i) => ema - longEMAValues[i]);
-/
def macdLineOf (shortEMA longEMA : List ℚ) : List JSNum :=
  let shortEMAValues := jsSlice1 shortEMA ((longEMA.length : ℤ) - shortEMA.length)
  let longEMAValues := jsSlice1 longEMA ((longEMA.length : ℤ) - shortEMA.length)
  shortEMAValues.mapIdx fun i e => JSNum.sub (.fin e) (jsGetDJ (longEMAValues.map JSNum.fin) i)

/-- `candles[i]` read by `macd` when it builds the synthetic candles; an
out-of-range read spreads `undefined`, which leaves the candle fields
absent — they are never read through the `macdLine` key, so a default
candle models it. -/
def jsGetCandle (candles : List Candle) (i : ℤ) : Candle :=
  if h : 0 ≤ i ∧ i.toNat < candles.length then candles.get ⟨i.toNat, h.2⟩
  else { time := 0, openPrice := 0, high := 0, low := 0, close := 0, volume := 0 }

/--
`macd` from src/src/index.ts: computes the macd line, feeds synthetic
candles carrying it into `ema` with window `signalPeriod` and key
`macdLine`, and returns `macdLine.map((value, i) => value - signalLine[i])`
— the read `signalLine[i]` is out of range for `i` past the signal line,
giving NaN in the subtraction.
-/
def macd (candles : List Candle) (shortEMA longEMA : List ℚ)
    (signalPeriod : ℤ) : Except JsError (List JSNum) :=
  let macdLine := macdLineOf shortEMA longEMA
  let synthetic := macdLine.mapIdx fun i value =>
    { toCandle := jsGetCandle candles ((i : ℤ) + (longEMA.length : ℤ) - shortEMA.length)
      macdLine := value }
  match ema synthetic signalPeriod (fun c => c.macdLine) with
  | .error e => .error e
  | .ok signalLine => .ok (macdLine.mapIdx fun i value => value.sub (jsGetDJ signalLine i))

/-- OHLCV data point consumed by `calculateAD`. -/
structure CryptoDataPoint where
  timestamp : ℚ
  high : ℚ
  low : ℚ
  close : ℚ
  volume : ℚ
deriving DecidableEq

/--
Loop body of `calculateAD`:

  const moneyFlowMultiplier = (close - low - (high - close)) / (high - low);
  const moneyFlowVolume = moneyFlowMultiplier * volume;
  const currentAD = prevAD + moneyFlowVolume;
  ad.push(currentAD); prevAD = currentAD;
-/
def adGo : List CryptoDataPoint → JSNum → List JSNum
  | [], _ => []
  | c :: rest, prevAD =>
      let moneyFlowMultiplier :=
        JSNum.div (.fin (c.close - c.low - (c.high - c.close))) (.fin (c.high - c.low))
      let moneyFlowVolume := moneyFlowMultiplier.mul (.fin c.volume)
      let currentAD := prevAD.add moneyFlowVolume
      currentAD :: adGo rest currentAD

/-- `calculateAD` from src/src/index.ts: cumulative money-flow volume,
starting from `prevAD = 0`. -/
def calculateAD (cryptoData : List CryptoDataPoint) : List JSNum :=
  adGo cryptoData (.fin 0)

/-- Spec-side definition, from the words of the specification: the
arithmetic mean of the last `N` elements of `data`. -/
def specLastNMean (data : List ℚ) (N : ℤ) : ℚ :=
  (data.drop (data.length - N.toNat)).sum / (N : ℚ)

/-- Spec-side definition: the trailing window of size `period` ending at
index `i` (indices `i - period + 1 .. i`). -/
def specWindow (data : List ℚ) (period : ℤ) (i : ℕ) : List ℚ :=
  (data.drop (i + 1 - period.toNat)).take period.toNat

/-- Spec-side definition: the mean of that trailing window. -/
def specWindowMean (data : List ℚ) (period : ℤ) (i : ℕ) : ℚ :=
  (specWindow data period i).sum / (period : ℚ)

/-- Spec-side definition: the population variance of that trailing window
(mean of squared deviations from the window mean). -/
def specWindowVar (data : List ℚ) (period : ℤ) (i : ℕ) : ℚ :=
  ((specWindow data period i).map
    (fun x => (x - specWindowMean data period i) ^ 2)).sum / (period : ℚ)

/-- Spec-side definition: per-bar money-flow volume,
`(((close - low) - (high - close)) / (high - low)) * volume`. -/
def specMoneyFlowVolume (c : CryptoDataPoint) : ℚ :=
  ((c.close - c.low - (c.high - c.close)) / (c.high - c.low)) * c.volume

/-- Spec-side definition: `AD[i]` as the cumulative sum of the money-flow
volumes of bars `0 .. i` (so `AD[-1] = 0`). -/
def specAD (cryptoData : List CryptoDataPoint) (i : ℕ) : ℚ :=
  ((cryptoData.take (i + 1)).map specMoneyFlowVolume).sum

/-! ### Helper lemmas: folds, slice resolution, indexed reads -/

@[simp] theorem JSNum.add_fin_fin (a b : ℚ) :
    JSNum.add (.fin a) (.fin b) = .fin (a + b) := rfl

@[simp] theorem JSNum.add_nan_right (a : JSNum) : JSNum.add a .nan = .nan := by
  cases a <;> rfl

@[simp] theorem JSNum.add_nan_left (a : JSNum) : JSNum.add .nan a = .nan := by
  cases a <;> rfl

@[simp] theorem JSNum.sub_fin_fin (a b : ℚ) :
    JSNum.sub (.fin a) (.fin b) = .fin (a - b) := by
  simp [JSNum.sub, JSNum.neg, JSNum.add, sub_eq_add_neg]

@[simp] theorem JSNum.sub_nan_right (a : JSNum) : JSNum.sub a .nan = .nan := by
  cases a <;> rfl

@[simp] theorem JSNum.mul_fin_fin (a b : ℚ) :
    JSNum.mul (.fin a) (.fin b) = .fin (a * b) := rfl

@[simp] theorem JSNum.abs_fin (a : ℚ) : JSNum.abs (.fin a) = .fin |a| := rfl

theorem JSNum.div_fin_fin {b : ℚ} (hb : b ≠ 0) (a : ℚ) :
    JSNum.div (.fin a) (.fin b) = .fin (a / b) := by
  simp [JSNum.div, hb]

theorem JSNum.div_fin_zero_pos {a : ℚ} (ha : 0 < a) :
    JSNum.div (.fin a) (.fin 0) = .inf := by
  simp [JSNum.div, ha]

@[simp] theorem JSNum.div_fin_inf (a : ℚ) : JSNum.div (.fin a) .inf = .fin 0 := rfl

@[simp] theorem JSNum.add_fin_inf (a : ℚ) : JSNum.add (.fin a) .inf = .inf := rfl

@[simp] theorem JSNum.blt_fin_fin (a b : ℚ) :
    JSNum.blt (.fin a) (.fin b) = decide (a < b) := rfl

theorem foldl_add_init (xs : List ℚ) : ∀ a : ℚ, xs.foldl (· + ·) a = a + xs.sum := by
  induction xs with
  | nil => simp
  | cons x xs ih => intro a; simp [ih]; ring

theorem foldl_add_map_init (f : α → ℚ) (xs : List α) :
    ∀ a : ℚ, xs.foldl (fun acc v => acc + f v) a = a + (xs.map f).sum := by
  induction xs with
  | nil => simp
  | cons x xs ih => intro a; simp [ih]; ring

theorem take_min_length (l : List α) (n : ℕ) : l.take (min n l.length) = l.take n := by
  rcases le_total n l.length with h | h
  · simp [min_eq_left h]
  · simp [min_eq_right h, List.take_of_length_le, h]

theorem jsResolveIndex_coe (len k : ℕ) : jsResolveIndex len (k : ℤ) = min k len := by
  simp [jsResolveIndex]

theorem jsResolveIndex_nonneg (len : ℕ) {i : ℤ} (h : 0 ≤ i) :
    jsResolveIndex len i = min i.toNat len := by
  simp [jsResolveIndex, not_lt.mpr h]

theorem jsSlice_zero_coe (xs : List α) (b : ℕ) : jsSlice xs 0 (b : ℤ) = xs.take b := by
  have h0 : jsResolveIndex xs.length 0 = 0 := by simp [jsResolveIndex]
  have hb : jsResolveIndex xs.length (b : ℤ) = min b xs.length := jsResolveIndex_coe _ _
  simp only [jsSlice, h0, hb, List.drop_zero, Nat.sub_zero]
  exact take_min_length xs b

theorem jsGetDQ_coe (xs : List ℚ) (i : ℕ) (h : i < xs.length) :
    jsGetDQ xs (i : ℤ) = .fin (xs.get ⟨i, h⟩) := by
  simp [jsGetDQ, h]

theorem jsGetDQ_of_neg (xs : List ℚ) {i : ℤ} (h : i < 0) : jsGetDQ xs i = .nan := by
  simp [jsGetDQ, not_le.mpr h]

/-! ### Claim C1: movingAverage -/

theorem movingAverage_eq_ok (data : List ℚ) (N : ℤ) (h1 : 1 ≤ N)
    (h2 : N ≤ (data.length : ℤ)) :
    movingAverage data N = .ok (specLastNMean data N) := by
  have hguard : ¬ (data.length : ℤ) < N := not_lt.mpr h2
  have hres : jsResolveIndex data.length ((data.length : ℤ) - N) =
      data.length - N.toNat := by
    rw [jsResolveIndex_nonneg _ (by omega)]
    omega
  have hdlen : (data.drop (data.length - N.toNat)).length = N.toNat := by
    rw [List.length_drop]; omega
  have hne : data.drop (data.length - N.toNat) ≠ [] := by
    intro hcon; rw [hcon] at hdlen; simp at hdlen; omega
  obtain ⟨x, xs, hxxs⟩ := List.exists_cons_of_ne_nil hne
  simp only [movingAverage, hguard, if_false, jsSlice1, hres, hxxs]
  rw [foldl_add_init]
  simp only [specLastNMean, hxxs, List.sum_cons]

theorem movingAverage_guard (data : List ℚ) (N : ℤ)
    (h : (data.length : ℤ) < N) :
    movingAverage data N = .error .notEnoughData := by
  simp [movingAverage, h]

theorem movingAverage_reduceEmpty (data : List ℚ) (N : ℤ) (h : N ≤ 0) :
    movingAverage data N = .error .reduceEmpty := by
  have hguard : ¬ (data.length : ℤ) < N := by omega
  have hres : jsResolveIndex data.length ((data.length : ℤ) - N) = data.length := by
    rw [jsResolveIndex_nonneg _ (by omega)]
    omega
  simp only [movingAverage, hguard, if_false, jsSlice1, hres, List.drop_length]

/-- Claim C1 (amended): `movingAverage(data, N)` returns the arithmetic mean
of the last `N` elements whenever `data.length ≥ N` and `N ≥ 1`, and fails
with the InsufficientDataError exactly when `data.length < N`; when `N ≤ 0`
(so that `data.length < N` cannot hold) it fails, but with the TypeError of
reducing an empty array rather than with the InsufficientDataError. -/
theorem movingAverage_spec (data : List ℚ) (N : ℤ) :
    (1 ≤ N → N ≤ (data.length : ℤ) →
      movingAverage data N = .ok (specLastNMean data N))
    ∧ ((data.length : ℤ) < N → movingAverage data N = .error .notEnoughData)
    ∧ (N ≤ 0 → movingAverage data N = .error .reduceEmpty) :=
  ⟨fun h1 h2 => movingAverage_eq_ok data N h1 h2,
   fun h => movingAverage_guard data N h,
   fun h => movingAverage_reduceEmpty data N h⟩

/-- Witness for C1 at the concrete inputs of the claim:
`movingAverage([2,4,6,8,10], 3) = 8` and `movingAverage([2,4], 3)` fails
with the InsufficientDataError. -/
theorem movingAverage_spec_witness :
    movingAverage [2, 4, 6, 8, 10] 3 = .ok 8
    ∧ movingAverage [2, 4] 3 = .error .notEnoughData := by
  constructor
  · rw [(movingAverage_spec [2, 4, 6, 8, 10] 3).1 (by norm_num) (by norm_num)]
    norm_num [specLastNMean, List.drop]
  · exact (movingAverage_spec [2, 4] 3).2.1 (by norm_num)

/-- Counterexample to C1 as stated: at `data = [1]`, `N = 0` the claim
predicts the InsufficientDataError, but the code passes its guard (the
array length is not below `N`) and instead throws the TypeError of reducing
an empty array. -/
theorem movingAverage_claim_false :
    movingAverage [1] 0 = .error .reduceEmpty
    ∧ JsError.reduceEmpty ≠ JsError.notEnoughData := by
  constructor
  · rfl
  · decide

/-! ### Claim C2: simpleMovingAverage -/

theorem smaGo_length (cp : List ℚ) (n : ℤ) :
    ∀ (r i : ℕ) (sum : JSNum),
      (smaGo cp n i r sum).length = (i + r) - max i n.toNat := by
  intro r
  induction r with
  | zero => intro i sum; simp only [smaGo, List.length_nil]; omega
  | succ r ih =>
    intro i sum
    simp only [smaGo]
    by_cases h : (i : ℤ) ≥ n
    · rw [if_pos h]
      simp only [List.length_cons, ih]
      omega
    · rw [if_neg h]
      rw [ih]
      omega

theorem smaGo_spec (cp : List ℚ) (n : ℤ) (hn : 1 ≤ n) :
    ∀ (r i : ℕ), i + r = cp.length →
      smaGo cp n i r (.fin ((cp.take i).sum - (cp.take (i - n.toNat)).sum)) =
      (List.range' (max i n.toNat) (cp.length - max i n.toNat)).map
        (fun j => JSNum.fin
          (((cp.take (j + 1)).sum - (cp.take (j + 1 - n.toNat)).sum) / (n : ℚ))) := by
  intro r
  induction r with
  | zero =>
    intro i hi
    have h0 : cp.length - max i n.toNat = 0 := by omega
    simp [smaGo, h0]
  | succ r ih =>
    intro i hi
    have hilen : i < cp.length := by omega
    have hgeti : jsGetDQ cp (i : ℤ) = .fin (cp.get ⟨i, hilen⟩) := jsGetDQ_coe cp i hilen
    have htake : (cp.take (i + 1)).sum = (cp.take i).sum + cp.get ⟨i, hilen⟩ := by
      simpa using List.sum_take_succ cp i hilen
    simp only [smaGo, hgeti]
    by_cases h : (i : ℤ) ≥ n
    · have him : n.toNat ≤ i := by omega
      have hsub : jsGetDQ cp ((i : ℤ) - n) =
          .fin (cp.get ⟨i - n.toNat, by omega⟩) := by
        rw [show (i : ℤ) - n = ((i - n.toNat : ℕ) : ℤ) by omega]
        exact jsGetDQ_coe cp (i - n.toNat) (by omega)
      have htake2 : (cp.take (i - n.toNat + 1)).sum =
          (cp.take (i - n.toNat)).sum + cp.get ⟨i - n.toNat, by omega⟩ := by
        simpa using List.sum_take_succ cp (i - n.toNat) (by omega)
      rw [if_pos h]
      simp only [JSNum.add_fin_fin, hsub, JSNum.sub_fin_fin]
      have hstate : (cp.take i).sum - (cp.take (i - n.toNat)).sum + cp.get ⟨i, hilen⟩
          - cp.get ⟨i - n.toNat, by omega⟩
          = (cp.take (i + 1)).sum - (cp.take (i + 1 - n.toNat)).sum := by
        rw [htake, show i + 1 - n.toNat = i - n.toNat + 1 by omega, htake2]
        ring
      rw [hstate]
      have hdiv : JSNum.div (.fin ((cp.take (i + 1)).sum - (cp.take (i + 1 - n.toNat)).sum))
          (.fin (n : ℚ)) =
          .fin (((cp.take (i + 1)).sum - (cp.take (i + 1 - n.toNat)).sum) / (n : ℚ)) := by
        refine JSNum.div_fin_fin ?_ _
        have : (0 : ℤ) < n := by omega
        exact_mod_cast this.ne'
      rw [hdiv]
      have hmax : max i n.toNat = i := by omega
      have hmax1 : max (i + 1) n.toNat = i + 1 := by omega
      have ihr := ih (i + 1) (by omega)
      rw [hmax1] at ihr
      rw [show cp.length - (i + 1) = r by omega] at ihr
      rw [hmax, show cp.length - i = r + 1 by omega, List.range'_succ, List.map_cons, ihr]
    · have him : i < n.toNat := by omega
      rw [if_neg h]
      simp only [JSNum.add_fin_fin]
      have hstate : (cp.take i).sum - (cp.take (i - n.toNat)).sum + cp.get ⟨i, hilen⟩
          = (cp.take (i + 1)).sum - (cp.take (i + 1 - n.toNat)).sum := by
        rw [htake, show i - n.toNat = 0 by omega, show i + 1 - n.toNat = 0 by omega]
        ring
      rw [hstate]
      have hmax : max i n.toNat = n.toNat := by omega
      have hmax1 : max (i + 1) n.toNat = n.toNat := by omega
      have ihr := ih (i + 1) (by omega)
      rw [hmax1] at ihr
      rw [hmax]
      rw [ihr]

theorem sum_take_sub_take (cp : List ℚ) (a b : ℕ) :
    (cp.take (a + b)).sum - (cp.take a).sum = ((cp.drop a).take b).sum := by
  rw [List.take_add, List.sum_append]
  ring

theorem simpleMovingAverage_length (closePrices : List ℚ) (n : ℤ) :
    (simpleMovingAverage closePrices n).length = closePrices.length - n.toNat := by
  rw [simpleMovingAverage, smaGo_length]
  omega

theorem simpleMovingAverage_value (closePrices : List ℚ) (n : ℤ) (hn : 1 ≤ n)
    (j : ℕ) (hj : j < closePrices.length - n.toNat) :
    jsGetDJ (simpleMovingAverage closePrices n) j =
      .fin ((((closePrices.drop (j + 1)).take n.toNat).sum) / (n : ℚ)) := by
  have h := smaGo_spec closePrices n hn closePrices.length 0 (by omega)
  have hmax : max 0 n.toNat = n.toNat := by omega
  rw [hmax] at h
  simp only [List.take_zero, List.sum_nil, Nat.zero_sub, sub_zero] at h
  rw [simpleMovingAverage, h, jsGetDJ]
  have hj2 : j < (List.map
      (fun j => JSNum.fin
        (((closePrices.take (j + 1)).sum - (closePrices.take (j + 1 - n.toNat)).sum) / (n : ℚ)))
      (List.range' n.toNat (closePrices.length - n.toNat))).length := by
    simpa using hj
  rw [List.getD_eq_getElem _ _ hj2, List.getElem_map, List.getElem_range']
  have h2 : n.toNat + 1 * j + 1 - n.toNat = j + 1 := by omega
  rw [h2]
  have h1 : n.toNat + 1 * j + 1 = (j + 1) + n.toNat := by omega
  rw [h1, sum_take_sub_take]

/-- Claim C2 (amended): `simpleMovingAverage(closePrices, n)` never fails,
and its output length is `closePrices.length - max(n, 0)` truncated at zero
— i.e. `max(0, len - n)` for `n ≥ 0`, but `len` (not zero) for `n < 0`; for
`0 < n ≤ closePrices.length` the j-th output (j from 0) is the mean of
`closePrices[j+1 .. j+n]` (the conventional first full window over indices
`[0 .. n-1]` is never emitted).  The output for `n ≤ 0` is not the empty
sequence: for `n = 0` it is a list of NaN of the input length. -/
theorem simpleMovingAverage_spec (closePrices : List ℚ) (n : ℤ) :
    (simpleMovingAverage closePrices n).length = closePrices.length - n.toNat
    ∧ (1 ≤ n →
        ∀ j : ℕ, j < closePrices.length - n.toNat →
          jsGetDJ (simpleMovingAverage closePrices n) j =
            .fin ((((closePrices.drop (j + 1)).take n.toNat).sum) / (n : ℚ))) :=
  ⟨simpleMovingAverage_length closePrices n,
   fun hn j hj => simpleMovingAverage_value closePrices n hn j hj⟩

/-- Witness for C2 at the concrete input of the claim sources:
`simpleMovingAverage([10,20,30,40,50], 3)` has length `5 - 3 = 2` and its
values are the window means `30` and `40` of the documented offset policy. -/
theorem simpleMovingAverage_spec_witness :
    (simpleMovingAverage [10, 20, 30, 40, 50] 3).length = 2
    ∧ jsGetDJ (simpleMovingAverage [10, 20, 30, 40, 50] 3) 0 = .fin 30
    ∧ jsGetDJ (simpleMovingAverage [10, 20, 30, 40, 50] 3) 1 = .fin 40 := by
  refine ⟨?_, ?_, ?_⟩
  · rw [(simpleMovingAverage_spec [10, 20, 30, 40, 50] 3).1]
    decide
  · rw [(simpleMovingAverage_spec [10, 20, 30, 40, 50] 3).2 (by norm_num) 0 (by decide)]
    norm_num [List.drop, List.take]
  · rw [(simpleMovingAverage_spec [10, 20, 30, 40, 50] 3).2 (by norm_num) 1 (by decide)]
    norm_num [List.drop, List.take]

/-- Counterexample to C2 as stated: for `n = -1` and three inputs the code
emits three values, not `max(0, 3 - (-1)) = 4`; and for `n = 0` on `[10]`
the output is the one-element list `[NaN]`, not the empty sequence the
claim asserts for every `n ≤ 0`. -/
theorem simpleMovingAverage_claim_false :
    (simpleMovingAverage [1, 2, 3] (-1)).length = 3
    ∧ (3 : ℤ) ≠ max 0 ((3 : ℤ) - (-1))
    ∧ simpleMovingAverage [10] 0 ≠ [] := by
  refine ⟨?_, by decide, ?_⟩
  · rw [simpleMovingAverage_length]
    decide
  · intro hcon
    have hl := simpleMovingAverage_length [10] 0
    rw [hcon] at hl
    simp at hl

/-! ### Claim C6: MAD -/

theorem MAD_length (numbers : List ℚ) (windowSize : ℤ) :
    (MAD numbers windowSize).length = ((numbers.length : ℤ) - windowSize + 1).toNat := by
  simp only [MAD, List.length_map, List.length_range]

/-- Claim C6 (amended): `MAD(numbers, windowSize)` returns a sequence of
length `numbers.length - windowSize + 1` whenever `windowSize ≤
numbers.length` — including every `windowSize ≤ 0`, where the loop still
runs that many times and the output is therefore not empty; the empty
sequence is returned exactly when `windowSize > numbers.length`, with no
explicit failure. -/
theorem MAD_spec (numbers : List ℚ) (windowSize : ℤ) :
    (windowSize ≤ (numbers.length : ℤ) →
      ((MAD numbers windowSize).length : ℤ) = (numbers.length : ℤ) - windowSize + 1)
    ∧ ((numbers.length : ℤ) < windowSize → MAD numbers windowSize = []) := by
  constructor
  · intro h
    rw [MAD_length]
    omega
  · intro h
    have hl := MAD_length numbers windowSize
    have : (MAD numbers windowSize).length = 0 := by omega
    exact List.eq_nil_of_length_eq_zero this

/-- Witness for C6: a window of size 2 over four samples gives
`4 - 2 + 1 = 3` values, and a window larger than the input gives the empty
sequence. -/
theorem MAD_spec_witness :
    ((MAD [1, 2, 3, 4] 2).length : ℤ) = 3 ∧ MAD [1, 2] 3 = [] := by
  constructor
  · have h := (MAD_spec [1, 2, 3, 4] 2).1 (by norm_num)
    rw [h]
    decide
  · exact (MAD_spec [1, 2] 3).2 (by norm_num)

/-- Counterexample to C6 as stated: for `windowSize = 0` on the one-element
input `[1]` the claim asserts the empty sequence, but the loop bound
`i ≤ numbers.length - windowSize` admits two iterations and the output has
length 2. -/
theorem MAD_claim_false :
    (MAD [1] 0).length = 2 ∧ MAD [1] 0 ≠ [] := by
  have h := MAD_length [1] 0
  constructor
  · rw [h]; decide
  · intro hcon
    rw [hcon] at h
    simp at h

/-! ### Claim C3: rsi output length -/

theorem rsiGo_length (deltas : List ℚ) (period : ℤ) :
    ∀ (r : ℕ) (i : ℤ) (g l : JSNum), (rsiGo deltas period i r g l).length = r := by
  intro r
  induction r with
  | zero => intros; simp [rsiGo]
  | succ r ih =>
    intro i g l
    simp only [rsiGo, List.length_cons, ih]

theorem rsi_length (options : RSIOptions) :
    (rsi options).length = 1 + ((options.values.length : ℤ) - options.period).toNat := by
  simp only [rsi, List.length_cons, rsiGo_length]
  omega

/-- Claim C3 (amended): for `values.length > period` and `period > 0`,
`rsi({period, values})` returns a sequence of length
`values.length - period + 1` — one more than the `values.length - period`
the claim states (the loop contributes `values.length - period` values on
top of the seed value). -/
theorem rsi_spec (options : RSIOptions) (_hp : 0 < options.period)
    (hl : options.period < (options.values.length : ℤ)) :
    ((rsi options).length : ℤ) = (options.values.length : ℤ) - options.period + 1 := by
  rw [rsi_length]
  push_cast
  omega

/-- Witness for C3: `rsi({period: 1, values: [1,2]})` has `2 - 1 + 1 = 2`
entries. -/
theorem rsi_spec_witness :
    ((rsi { period := 1, values := [1, 2] }).length : ℤ) = 2 := by
  have h := rsi_spec { period := 1, values := [1, 2] } (by decide) (by decide)
  rw [h]
  decide

/-- Counterexample to C3 as stated: at `period = 1`, `values = [1,2]` the
claim predicts `2 - 1 = 1` output value, but the code returns 2 (the seed
value plus one loop value). -/
theorem rsi_claim_false :
    (rsi { period := 1, values := [1, 2] }).length = 2
    ∧ (2 : ℤ) ≠ ([1, 2] : List ℚ).length - 1 := by
  constructor
  · rw [rsi_length]
    decide
  · decide

/-! ### Claim C8: rsi saturation at 100 on strictly increasing input -/

theorem jsSlice_zero_nonneg (xs : List α) {b : ℤ} (hb : 0 ≤ b) :
    jsSlice xs 0 b = xs.take b.toNat := by
  have h0 : jsResolveIndex xs.length 0 = 0 := by simp [jsResolveIndex]
  rw [jsSlice, h0, jsResolveIndex_nonneg _ hb, List.drop_zero, Nat.sub_zero]
  exact take_min_length xs b.toNat

theorem rsiDeltas_length (values : List ℚ) :
    (rsiDeltas values).length = values.length - 1 := by
  simp only [rsiDeltas, List.length_map, List.length_range]

theorem rsiDeltas_get (values : List ℚ) (j : ℕ) (hj : j < (rsiDeltas values).length) :
    (rsiDeltas values).get ⟨j, hj⟩ = values.getD (j + 1) 0 - values.getD j 0 := by
  simp only [rsiDeltas, List.get_eq_getElem, List.getElem_map, List.getElem_range]

theorem rsiDeltas_pos (values : List ℚ)
    (hm : ∀ i : ℕ, (h : i + 1 < values.length) →
      values.get ⟨i, Nat.lt_of_succ_lt h⟩ < values.get ⟨i + 1, h⟩) :
    ∀ j : ℕ, (hj : j < (rsiDeltas values).length) → 0 < (rsiDeltas values).get ⟨j, hj⟩ := by
  intro j hj
  have hlen : j < values.length - 1 := by
    have := rsiDeltas_length values
    omega
  rw [rsiDeltas_get]
  have h1 : j + 1 < values.length := by omega
  rw [List.getD_eq_getElem _ _ h1, List.getD_eq_getElem _ _ (by omega : j < values.length)]
  have hlt := hm j h1
  simp only [List.get_eq_getElem] at hlt
  linarith

theorem rsiGains_pos (values : List ℚ)
    (hm : ∀ i : ℕ, (h : i + 1 < values.length) →
      values.get ⟨i, Nat.lt_of_succ_lt h⟩ < values.get ⟨i + 1, h⟩) :
    ∀ x ∈ rsiGains values, 0 < x := by
  intro x hx
  obtain ⟨d, hd, hfd⟩ := List.mem_map.mp hx
  obtain ⟨n, hn⟩ := List.mem_iff_get.mp hd
  have hdpos : 0 < d := by
    have := rsiDeltas_pos values hm n.1 n.2
    rwa [hn] at this
  rw [if_pos hdpos] at hfd
  rwa [← hfd]

theorem rsiLosses_zero (values : List ℚ)
    (hm : ∀ i : ℕ, (h : i + 1 < values.length) →
      values.get ⟨i, Nat.lt_of_succ_lt h⟩ < values.get ⟨i + 1, h⟩) :
    ∀ x ∈ rsiLosses values, x = 0 := by
  intro x hx
  obtain ⟨d, hd, hfd⟩ := List.mem_map.mp hx
  obtain ⟨n, hn⟩ := List.mem_iff_get.mp hd
  have hdpos : 0 < d := by
    have := rsiDeltas_pos values hm n.1 n.2
    rwa [hn] at this
  rw [if_neg (by linarith)] at hfd
  exact hfd.symm

theorem rsiSeed_of_increasing (options : RSIOptions) (hp : 1 ≤ options.period)
    (hl : options.period < (options.values.length : ℤ))
    (hm : ∀ i : ℕ, (h : i + 1 < options.values.length) →
      options.values.get ⟨i, Nat.lt_of_succ_lt h⟩ < options.values.get ⟨i + 1, h⟩) :
    (∃ g : ℚ, 0 < g ∧ rsiSeedAvgGain options = .fin g)
    ∧ rsiSeedAvgLoss options = .fin 0 := by
  have hdl : (rsiDeltas options.values).length = options.values.length - 1 :=
    rsiDeltas_length options.values
  have hglen : (rsiGains options.values).length = options.values.length - 1 := by
    rw [rsiGains, List.length_map, hdl]
  have hllen : (rsiLosses options.values).length = options.values.length - 1 := by
    rw [rsiLosses, List.length_map, hdl]
  have hsliceg : jsSlice (rsiGains options.values) 0 options.period =
      (rsiGains options.values).take options.period.toNat :=
    jsSlice_zero_nonneg _ (by omega)
  have hslicel : jsSlice (rsiLosses options.values) 0 options.period =
      (rsiLosses options.values).take options.period.toNat :=
    jsSlice_zero_nonneg _ (by omega)
  have hgtlen : ((rsiGains options.values).take options.period.toNat).length =
      options.period.toNat := by
    rw [List.length_take, hglen]
    omega
  have hltlen : ((rsiLosses options.values).take options.period.toNat).length =
      options.period.toNat := by
    rw [List.length_take, hllen]
    omega
  have hptQ : ((options.period.toNat : ℚ)) ≠ 0 := by
    have : 0 < options.period.toNat := by omega
    exact_mod_cast this.ne'
  constructor
  · have hpos : ∀ x ∈ (rsiGains options.values).take options.period.toNat, 0 < x :=
      fun x hx => rsiGains_pos options.values hm x (List.mem_of_mem_take hx)
    have hne : (rsiGains options.values).take options.period.toNat ≠ [] := by
      intro hcon
      rw [hcon] at hgtlen
      simp at hgtlen
      omega
    have hsum : 0 < ((rsiGains options.values).take options.period.toNat).sum :=
      List.sum_pos _ hpos hne
    refine ⟨((rsiGains options.values).take options.period.toNat).sum /
      (options.period.toNat : ℚ), ?_, ?_⟩
    · apply div_pos hsum
      have : 0 < options.period.toNat := by omega
      exact_mod_cast this
    · rw [rsiSeedAvgGain, hsliceg, calculateAverage, foldl_add_init, zero_add, hgtlen,
        JSNum.div_fin_fin hptQ]
  · have hzero : ∀ x ∈ (rsiLosses options.values).take options.period.toNat, x = 0 :=
      fun x hx => rsiLosses_zero options.values hm x (List.mem_of_mem_take hx)
    have hsum : ((rsiLosses options.values).take options.period.toNat).sum = 0 :=
      List.sum_eq_zero hzero
    rw [rsiSeedAvgLoss, hslicel, calculateAverage, foldl_add_init, zero_add, hsum, hltlen,
      JSNum.div_fin_fin hptQ, zero_div]

theorem rsiGo_all100 (deltas : List ℚ) (p : ℤ) (hp : 1 ≤ p)
    (hd : ∀ j : ℕ, (hj : j < deltas.length) → 0 < deltas.get ⟨j, hj⟩) :
    ∀ (r : ℕ) (i : ℤ) (g : ℚ), 0 < g → 1 ≤ i →
      (i - 1).toNat + r ≤ deltas.length →
      ∀ x ∈ rsiGo deltas p i r (.fin g) (.fin 0), x = .fin 100 := by
  intro r
  induction r with
  | zero =>
    intro i g _ _ _ x hx
    simp [rsiGo] at hx
  | succ r ih =>
    intro i g hg hi hlen x hx
    have hrange : (i - 1).toNat < deltas.length := by omega
    have hdpos : 0 < deltas.get ⟨(i - 1).toNat, hrange⟩ := hd _ hrange
    have hget : jsGetDQ deltas (i - 1) = .fin (deltas.get ⟨(i - 1).toNat, hrange⟩) := by
      rw [jsGetDQ, dif_pos (⟨by omega, hrange⟩ : 0 ≤ i - 1 ∧ (i - 1).toNat < deltas.length)]
    have hblt1 : JSNum.blt (.fin 0) (.fin (deltas.get ⟨(i - 1).toNat, hrange⟩)) = true := by
      rw [JSNum.blt_fin_fin]
      exact decide_eq_true hdpos
    have hblt2 : JSNum.blt (.fin (deltas.get ⟨(i - 1).toNat, hrange⟩)) (.fin 0) = false := by
      rw [JSNum.blt_fin_fin]
      exact decide_eq_false (not_lt.mpr hdpos.le)
    have hpQ : ((p : ℚ)) ≠ 0 := by
      have : (0 : ℤ) < p := by omega
      exact_mod_cast this.ne'
    have hg1 : 0 < (g * ((p : ℚ) - 1) + deltas.get ⟨(i - 1).toNat, hrange⟩) / (p : ℚ) := by
      apply div_pos
      · have hp1 : (1 : ℚ) ≤ (p : ℚ) := by exact_mod_cast hp
        have hnn : 0 ≤ g * ((p : ℚ) - 1) := mul_nonneg hg.le (by linarith)
        linarith
      · exact_mod_cast (by omega : (0 : ℤ) < p)
    have hstep : rsiGo deltas p i (r + 1) (.fin g) (.fin 0) =
        .fin 100 :: rsiGo deltas p (i + 1) r
          (.fin ((g * ((p : ℚ) - 1) + deltas.get ⟨(i - 1).toNat, hrange⟩) / (p : ℚ)))
          (.fin 0) := by
      simp only [rsiGo, hget, hblt1, hblt2, if_true, if_false, Bool.false_eq_true,
        JSNum.mul_fin_fin, JSNum.add_fin_fin, JSNum.div_fin_fin hpQ, zero_mul, zero_add,
        add_zero, zero_div, JSNum.div_fin_zero_pos hg1, JSNum.add_fin_inf, JSNum.div_fin_inf,
        JSNum.sub_fin_fin, sub_zero]
    rw [hstep] at hx
    rcases List.mem_cons.mp hx with h1 | h2
    · exact h1
    · exact ih (i + 1) _ hg1 (by omega) (by omega) x h2

/-- Claim C8: for a strictly increasing values array with
`values.length > period ≥ 1` every delta is a gain, the seed `avgLoss` is
exactly 0, the seed division `avgGain / avgLoss` produces the infinite
`rs`, and every element of the rsi output saturates at exactly 100 — purely
by the arithmetic (the 100 arises as `100 - 100/(1 + ∞) = 100 - 0`), with
no clamping anywhere in the code. -/
theorem rsi_saturates (options : RSIOptions) (hp : 1 ≤ options.period)
    (hl : options.period < (options.values.length : ℤ))
    (hm : ∀ i : ℕ, (h : i + 1 < options.values.length) →
      options.values.get ⟨i, Nat.lt_of_succ_lt h⟩ < options.values.get ⟨i + 1, h⟩) :
    rsiSeedAvgLoss options = .fin 0
    ∧ rsiSeedRs options = .inf
    ∧ ∀ x ∈ rsi options, x = .fin 100 := by
  obtain ⟨⟨g, hg, hAG⟩, hAL⟩ := rsiSeed_of_increasing options hp hl hm
  have hrs : rsiSeedRs options = .inf := by
    rw [rsiSeedRs, hAG, hAL, JSNum.div_fin_zero_pos hg]
  refine ⟨hAL, hrs, ?_⟩
  intro x hx
  have hdpos := rsiDeltas_pos options.values hm
  have hdl := rsiDeltas_length options.values
  simp only [rsi, hAG, hAL, JSNum.div_fin_zero_pos hg, JSNum.add_fin_inf,
    JSNum.div_fin_inf, JSNum.sub_fin_fin, sub_zero] at hx
  rcases List.mem_cons.mp hx with h1 | h2
  · exact h1
  · exact rsiGo_all100 (rsiDeltas options.values) options.period hp hdpos
      (((options.values.length : ℤ) - options.period).toNat) options.period g hg
      (by omega) (by omega) x h2

/-- Witness for C8 at the strictly increasing input `[1, 2]` with
`period = 1`: the seed avgLoss is 0, rs is infinite, and both rsi values
are exactly 100. -/
theorem rsi_saturates_witness :
    rsiSeedAvgLoss { period := 1, values := [1, 2] } = .fin 0
    ∧ rsiSeedRs { period := 1, values := [1, 2] } = .inf
    ∧ ∀ x ∈ rsi { period := 1, values := [1, 2] }, x = .fin 100 :=
  rsi_saturates { period := 1, values := [1, 2] } (by decide) (by decide)
    (by
      intro i h
      have h2 : i + 1 < 2 := by simpa using h
      have h0 : i = 0 := by omega
      subst h0
      exact show (1 : ℚ) < 2 by norm_num)

/-! ### Claims C5 and C10: bollingerBands -/

theorem bollingerBands_length (sqrt : ℚ → ℚ) (data : List ℚ) (period : ℤ)
    (deviation : ℚ) :
    (bollingerBands sqrt data period deviation).length = data.length := by
  simp only [bollingerBands, List.length_map, List.length_range]

theorem bollingerBands_row (sqrt : ℚ → ℚ) (data : List ℚ) (period : ℤ)
    (deviation : ℚ) (hp : 1 ≤ period) (i : ℕ) (hi : i < data.length) :
    (bollingerBands sqrt data period deviation).getD i ⟨.nan, .nan, .nan⟩ =
      if (i : ℤ) < period - 1 then ⟨.nan, .nan, .nan⟩
      else
        { upperBand := .fin (specWindowMean data period i
            + deviation * sqrt (specWindowVar data period i))
          middleBand := .fin (specWindowMean data period i)
          lowerBand := .fin (specWindowMean data period i
            - deviation * sqrt (specWindowVar data period i)) } := by
  have hlen : i < (bollingerBands sqrt data period deviation).length := by
    rw [bollingerBands_length]
    exact hi
  rw [List.getD_eq_getElem _ _ hlen]
  simp only [bollingerBands, List.getElem_map, List.getElem_range]
  by_cases hcase : (i : ℤ) < period - 1
  · rw [if_pos hcase, if_pos hcase]
  · rw [if_neg hcase, if_neg hcase]
    have hslice : jsSlice data ((i : ℤ) - period + 1) ((i : ℤ) + 1) =
        specWindow data period i := by
      rw [jsSlice, jsResolveIndex_nonneg _ (by omega), jsResolveIndex_nonneg _ (by omega)]
      have h1 : ((i : ℤ) - period + 1).toNat = i + 1 - period.toNat := by omega
      have h2 : ((i : ℤ) + 1).toNat = i + 1 := by omega
      have h3 : min (i + 1 - period.toNat) data.length = i + 1 - period.toNat := by omega
      have h4 : min (i + 1) data.length = i + 1 := by omega
      rw [h1, h2, h3, h4, specWindow]
      congr 1
      omega
    rw [hslice]
    have hmean : (specWindow data period i).foldl (· + ·) (0 : ℚ) =
        (specWindow data period i).sum := by
      rw [foldl_add_init, zero_add]
    rw [hmean]
    have hvar : (specWindow data period i).foldl
        (fun acc val => acc + (val - (specWindow data period i).sum / (period : ℚ)) ^ 2)
        (0 : ℚ) =
        ((specWindow data period i).map
          (fun val => (val - (specWindow data period i).sum / (period : ℚ)) ^ 2)).sum := by
      rw [foldl_add_map_init, zero_add]
    rw [hvar]
    simp only [specWindowMean, specWindowVar]

/-- Claim C5: for every data array, `period ≥ 1` and deviation,
`bollingerBands(data, period, deviation)` returns one record per input
sample; for `i < period - 1` all three fields are the NaN placeholder, and
for `i ≥ period - 1` the middle band is the mean of the trailing window
`data[i-period+1 .. i]` and the upper/lower bands are that mean plus/minus
`deviation` times the (population) standard deviation `sqrt(variance)` of
the same window. -/
theorem bollingerBands_spec (sqrt : ℚ → ℚ) (data : List ℚ) (period : ℤ)
    (deviation : ℚ) (hp : 1 ≤ period) :
    (bollingerBands sqrt data period deviation).length = data.length
    ∧ (∀ i : ℕ, i < data.length → (i : ℤ) < period - 1 →
        (bollingerBands sqrt data period deviation).getD i ⟨.nan, .nan, .nan⟩ =
          ⟨.nan, .nan, .nan⟩)
    ∧ (∀ i : ℕ, i < data.length → period - 1 ≤ (i : ℤ) →
        (bollingerBands sqrt data period deviation).getD i ⟨.nan, .nan, .nan⟩ =
          { upperBand := .fin (specWindowMean data period i
              + deviation * sqrt (specWindowVar data period i))
            middleBand := .fin (specWindowMean data period i)
            lowerBand := .fin (specWindowMean data period i
              - deviation * sqrt (specWindowVar data period i)) }) := by
  refine ⟨bollingerBands_length sqrt data period deviation, ?_, ?_⟩
  · intro i hi hlt
    rw [bollingerBands_row sqrt data period deviation hp i hi, if_pos hlt]
  · intro i hi hge
    rw [bollingerBands_row sqrt data period deviation hp i hi, if_neg (not_lt.mpr hge)]

/-- Witness for C5 with the identically-zero interpretation of `Math.sqrt`,
`data = [1,2,3]`, `period = 2`, `deviation = 1`: three records, a NaN
placeholder at index 0, and the index-1 record built from the window mean
`3/2`. -/
theorem bollingerBands_spec_witness :
    (bollingerBands (fun _ => 0) [1, 2, 3] 2 1).length = 3
    ∧ (bollingerBands (fun _ => 0) [1, 2, 3] 2 1).getD 0 ⟨.nan, .nan, .nan⟩ =
        ⟨.nan, .nan, .nan⟩
    ∧ (bollingerBands (fun _ => 0) [1, 2, 3] 2 1).getD 1 ⟨.nan, .nan, .nan⟩ =
        { upperBand := .fin (3 / 2), middleBand := .fin (3 / 2),
          lowerBand := .fin (3 / 2) } := by
  have h := bollingerBands_spec (fun _ => 0) [1, 2, 3] 2 1 (by norm_num)
  refine ⟨by rw [h.1]; rfl, h.2.1 0 (by norm_num) (by norm_num), ?_⟩
  rw [h.2.2 1 (by norm_num) (by norm_num)]
  norm_num [specWindowMean, specWindow, List.drop, List.take]

/-- Claim C10: for `period ≥ 1`, `deviation ≥ 0` and a square root that is
nonnegative on nonnegative inputs (as `Math.sqrt` is), every record emitted
at an index `i ≥ period - 1` has finite bands satisfying
`lowerBand ≤ middleBand ≤ upperBand`. -/
theorem bollingerBands_ordered (sqrt : ℚ → ℚ) (data : List ℚ) (period : ℤ)
    (deviation : ℚ) (hp : 1 ≤ period) (hd : 0 ≤ deviation)
    (hs : ∀ x : ℚ, 0 ≤ x → 0 ≤ sqrt x) (i : ℕ) (hi : i < data.length)
    (hip : period - 1 ≤ (i : ℤ)) :
    ∃ up mid lo : ℚ,
      (bollingerBands sqrt data period deviation).getD i ⟨.nan, .nan, .nan⟩ =
        { upperBand := .fin up, middleBand := .fin mid, lowerBand := .fin lo }
      ∧ lo ≤ mid ∧ mid ≤ up := by
  have hrow := bollingerBands_row sqrt data period deviation hp i hi
  rw [if_neg (not_lt.mpr hip)] at hrow
  have hvar : 0 ≤ specWindowVar data period i := by
    rw [specWindowVar]
    apply div_nonneg
    · apply List.sum_nonneg
      intro x hx
      obtain ⟨y, _, hy⟩ := List.mem_map.mp hx
      rw [← hy]
      positivity
    · exact_mod_cast (by omega : (0 : ℤ) ≤ period)
  have hnn : 0 ≤ deviation * sqrt (specWindowVar data period i) :=
    mul_nonneg hd (hs _ hvar)
  exact ⟨_, _, _, hrow, by linarith, by linarith⟩

/-- Witness for C10 with the identically-zero interpretation of
`Math.sqrt` at `data = [5]`, `period = 1`, `deviation = 0`, `i = 0`. -/
theorem bollingerBands_ordered_witness :
    ∃ up mid lo : ℚ,
      (bollingerBands (fun _ => 0) [5] 1 0).getD 0 ⟨.nan, .nan, .nan⟩ =
        { upperBand := .fin up, middleBand := .fin mid, lowerBand := .fin lo }
      ∧ lo ≤ mid ∧ mid ≤ up :=
  bollingerBands_ordered (fun _ => 0) [5] 1 0 (by norm_num) le_rfl
    (fun x _ => le_rfl) 0 (by norm_num) (by norm_num)

/-! ### Claim C7: calculateAD -/

theorem adGo_spec (cryptoData : List CryptoDataPoint)
    (h : ∀ c ∈ cryptoData, c.high ≠ c.low) :
    ∀ p : ℚ, adGo cryptoData (.fin p) =
      (List.range cryptoData.length).map (fun i => .fin (p + specAD cryptoData i)) := by
  induction cryptoData with
  | nil => intro p; simp [adGo]
  | cons c rest ih =>
    intro p
    have hc : c.high ≠ c.low := h c (List.mem_cons_self _ _)
    have hsub : c.high - c.low ≠ 0 := sub_ne_zero.mpr hc
    have hdiv : JSNum.div (.fin (c.close - c.low - (c.high - c.close)))
        (.fin (c.high - c.low)) =
        .fin ((c.close - c.low - (c.high - c.close)) / (c.high - c.low)) :=
      JSNum.div_fin_fin hsub _
    simp only [adGo, hdiv, JSNum.mul_fin_fin, JSNum.add_fin_fin]
    rw [ih (fun d hd => h d (List.mem_cons_of_mem _ hd))]
    rw [List.length_cons, List.range_succ_eq_map, List.map_cons, List.map_map]
    refine List.cons_eq_cons.mpr ⟨?_, ?_⟩
    · have h0 : specAD (c :: rest) 0 = specMoneyFlowVolume c := by
        simp [specAD]
      rw [h0]
      rfl
    · apply List.map_congr_left
      intro i _
      have hs : specAD (c :: rest) (i + 1) = specMoneyFlowVolume c + specAD rest i := by
        simp [specAD, List.take_succ_cons]
      simp only [Function.comp_apply, Nat.succ_eq_add_one, hs, specMoneyFlowVolume]
      rw [JSNum.fin.injEq]
      ring

/-- Claim C7: for a cryptoData array in which every bar has `high ≠ low`,
`calculateAD` returns one value per bar, the i-th value being the running
sum `AD[i] = AD[i-1] + moneyFlowVolume[i]` with `AD[-1] = 0`, where
`moneyFlowVolume[i] = (((close - low) - (high - close)) / (high - low)) *
volume` of bar i. -/
theorem calculateAD_spec (cryptoData : List CryptoDataPoint)
    (h : ∀ c ∈ cryptoData, c.high ≠ c.low) :
    (calculateAD cryptoData).length = cryptoData.length
    ∧ (∀ i : ℕ, i < cryptoData.length →
        jsGetDJ (calculateAD cryptoData) i = .fin (specAD cryptoData i))
    ∧ (∀ h0 : 0 < cryptoData.length,
        specAD cryptoData 0 = specMoneyFlowVolume (cryptoData.get ⟨0, h0⟩))
    ∧ (∀ i : ℕ, (hi : i + 1 < cryptoData.length) →
        specAD cryptoData (i + 1) =
          specAD cryptoData i + specMoneyFlowVolume (cryptoData.get ⟨i + 1, hi⟩)) := by
  have hgo := adGo_spec cryptoData h 0
  have hmap : calculateAD cryptoData =
      (List.range cryptoData.length).map (fun i => .fin (specAD cryptoData i)) := by
    rw [calculateAD, hgo]
    apply List.map_congr_left
    intro i _
    rw [zero_add]
  refine ⟨?_, ?_, ?_, ?_⟩
  · rw [hmap, List.length_map, List.length_range]
  · intro i hi
    rw [hmap, jsGetDJ, List.getD_eq_getElem _ _ (by simpa using hi),
      List.getElem_map, List.getElem_range]
  · intro h0
    cases cryptoData with
    | nil => simp at h0
    | cons c rest => simp [specAD]
  · intro i hi
    have hlen : i + 1 < (cryptoData.map specMoneyFlowVolume).length := by
      rw [List.length_map]
      exact hi
    have e1 : specAD cryptoData (i + 1) =
        ((cryptoData.map specMoneyFlowVolume).take (i + 1 + 1)).sum := by
      rw [specAD, List.map_take]
    have e2 : specAD cryptoData i =
        ((cryptoData.map specMoneyFlowVolume).take (i + 1)).sum := by
      rw [specAD, List.map_take]
    rw [e1, e2, List.sum_take_succ _ (i + 1) hlen, List.getElem_map, List.get_eq_getElem]

/-- Witness for C7 at a single bar with `high = 2 ≠ low = 1`,
`close = 3/2`, `volume = 10`: one output value, equal to the bar's
money-flow volume (which is 0 because the close sits exactly mid-range). -/
theorem calculateAD_spec_witness :
    (calculateAD [(⟨0, 2, 1, 3 / 2, 10⟩ : CryptoDataPoint)]).length = 1
    ∧ jsGetDJ (calculateAD [(⟨0, 2, 1, 3 / 2, 10⟩ : CryptoDataPoint)]) 0 = .fin 0 := by
  have h := calculateAD_spec [(⟨0, 2, 1, 3 / 2, 10⟩ : CryptoDataPoint)]
    (by
      intro c hc
      rw [List.mem_singleton] at hc
      subst hc
      norm_num)
  refine ⟨by rw [h.1]; rfl, ?_⟩
  rw [h.2.1 0 (by norm_num)]
  norm_num [specAD, specMoneyFlowVolume, List.take]

/-! ### Claim C4: macd line alignment -/

theorem jsGetDJ_of_length_le (xs : List JSNum) (i : ℕ) (h : xs.length ≤ i) :
    jsGetDJ xs i = .nan :=
  List.getD_eq_default _ _ h

theorem jsGetDJ_mapIdx (f : ℕ → α → JSNum) (xs : List α) (i : ℕ) (h : i < xs.length) :
    jsGetDJ (xs.mapIdx f) i = f i (xs.get ⟨i, h⟩) := by
  rw [jsGetDJ, List.getD_eq_get _ _ (by rw [List.length_mapIdx]; exact h)]
  exact List.get_mapIdx xs f i h

theorem macdLineOf_length (shortEMA longEMA : List ℚ) :
    (macdLineOf shortEMA longEMA).length =
      shortEMA.length -
        jsResolveIndex shortEMA.length ((longEMA.length : ℤ) - shortEMA.length) := by
  simp only [macdLineOf, List.length_mapIdx, jsSlice1, List.length_drop]

theorem emaGo_length (prices : List JSNum) (period : ℤ) :
    ∀ (r : ℕ) (i : ℤ) (e : JSNum), (emaGo prices period i r e).length = r := by
  intro r
  induction r with
  | zero => intros; simp [emaGo]
  | succ r ih =>
    intro i e
    simp only [emaGo, List.length_cons, ih]

theorem ema_ok (candles : List CandleWithMacdLine) (period : ℤ)
    (key : CandleWithMacdLine → JSNum) (hp : 1 ≤ period) (hne : candles ≠ []) :
    ∃ signal, ema candles period key = .ok signal
      ∧ signal.length = 1 + ((candles.length : ℤ) - period).toNat := by
  have hslice : jsSlice (candles.map key) 0 period = (candles.map key).take period.toNat :=
    jsSlice_zero_nonneg _ (by omega)
  have htlen : ((candles.map key).take period.toNat).length =
      min period.toNat candles.length := by
    rw [List.length_take, List.length_map]
  have hclen : 0 < candles.length := List.length_pos.mpr hne
  obtain ⟨p, ps, hps⟩ : ∃ p ps, (candles.map key).take period.toNat = p :: ps := by
    cases hcc : (candles.map key).take period.toNat with
    | nil =>
      rw [hcc] at htlen
      simp at htlen
      omega
    | cons p ps => exact ⟨p, ps, rfl⟩
  refine ⟨(ps.foldl JSNum.add p).div (.fin (period : ℚ)) ::
      emaGo (candles.map key) period period
        ((((candles.map key).length : ℤ)) - period).toNat
        ((ps.foldl JSNum.add p).div (.fin (period : ℚ))), ?_, ?_⟩
  · simp only [ema, hslice, hps]
  · simp only [List.length_cons, emaGo_length, List.length_map]
    omega

/-- Claim C9 (amended): whenever the macd line is nonempty and
`signalPeriod ≥ 1` (so the internal `ema` call does not throw), `macd`
returns a sequence of exactly the macd line's length; the signal line has
length `1 + max(0, macdLine.length - signalPeriod)` — shorter than the
macd line by `signalPeriod - 1` only when `signalPeriod ≤ macdLine.length`
— and at every index at or beyond that signal length the final subtraction
reads a signal-line index that does not exist, producing NaN.  (For an
empty macd line, `macd` throws instead of returning, and for
`signalPeriod > macdLine.length` the indices strictly between
`macdLine.length - signalPeriod + 1` and the signal length still read
existing signal entries, contrary to the claim as stated.) -/
theorem macd_spec (candles : List Candle) (shortEMA longEMA : List ℚ)
    (signalPeriod : ℤ) (hp : 1 ≤ signalPeriod)
    (hne : macdLineOf shortEMA longEMA ≠ []) :
    ∃ out, macd candles shortEMA longEMA signalPeriod = .ok out
      ∧ out.length = (macdLineOf shortEMA longEMA).length
      ∧ ∀ i : ℕ,
          1 + (((macdLineOf shortEMA longEMA).length : ℤ) - signalPeriod).toNat ≤ i →
          jsGetDJ out i = .nan := by
  obtain ⟨signal, hema, hsiglen⟩ :=
    ema_ok ((macdLineOf shortEMA longEMA).mapIdx fun i value =>
      { toCandle := jsGetCandle candles ((i : ℤ) + (longEMA.length : ℤ) - shortEMA.length)
        macdLine := value }) signalPeriod (fun c => c.macdLine) hp
      (by
        intro hcon
        apply hne
        have hlc := congrArg List.length hcon
        rw [List.length_mapIdx, List.length_nil] at hlc
        exact List.eq_nil_of_length_eq_zero hlc)
  have hsiglen2 : signal.length =
      1 + (((macdLineOf shortEMA longEMA).length : ℤ) - signalPeriod).toNat := by
    rw [hsiglen, List.length_mapIdx]
  refine ⟨(macdLineOf shortEMA longEMA).mapIdx fun i value =>
      value.sub (jsGetDJ signal i), ?_, ?_, ?_⟩
  · simp only [macd, hema]
  · rw [List.length_mapIdx]
  · intro i hile
    by_cases him : i < (macdLineOf shortEMA longEMA).length
    · rw [jsGetDJ_mapIdx _ _ i him, jsGetDJ_of_length_le signal i (by omega),
        JSNum.sub_nan_right]
    · rw [jsGetDJ_of_length_le _ i (by rw [List.length_mapIdx]; omega)]

/-- Witness for C9 at `shortEMA = longEMA = [0,0,0]`, `signalPeriod = 2`:
the macd line is `[0,0,0]`, the signal line has `3 - 2 + 1 = 2` entries,
and `macd` returns three values whose last one (index `2 ≥ 2`) is NaN. -/
theorem macd_spec_witness :
    ∃ out, macd [] [0, 0, 0] [0, 0, 0] 2 = .ok out
      ∧ out.length = (macdLineOf [0, 0, 0] ([0, 0, 0] : List ℚ)).length
      ∧ ∀ i : ℕ,
          1 + (((macdLineOf [0, 0, 0] ([0, 0, 0] : List ℚ)).length : ℤ) - 2).toNat ≤ i →
          jsGetDJ out i = .nan := by
  apply macd_spec [] [0, 0, 0] [0, 0, 0] 2 (by norm_num)
  intro hcon
  have hl := macdLineOf_length ([0, 0, 0] : List ℚ) [0, 0, 0]
  rw [hcon] at hl
  simp [jsResolveIndex] at hl

/-- Counterexample to C9 as stated: for empty inputs `macd` throws the
empty-reduce TypeError instead of returning a sequence; and at
`shortEMA = longEMA = [0,0]` with `signalPeriod = 5` the claim predicts an
out-of-range (non-numeric) read at every index `i ≥ 2 - 5 + 1`, yet the
value at index 0 is the finite number 0 (the one-entry signal line does
exist there). -/
theorem macd_claim_false :
    macd [] ([] : List ℚ) ([] : List ℚ) 9 = .error .reduceEmpty
    ∧ macd [] [0, 0] [0, 0] 5 = .ok [JSNum.fin 0, JSNum.nan]
    ∧ JSNum.fin 0 ≠ JSNum.nan
    ∧ ((0 : ℤ) ≥ (2 : ℤ) - 5 + 1) := by
  refine ⟨by rfl, ?_, by decide, by decide⟩
  have hml : macdLineOf [0, 0] [0, 0] = [JSNum.fin 0, JSNum.fin 0] := by
    norm_num [macdLineOf, jsSlice1, jsResolveIndex, jsGetDJ, List.mapIdx_cons,
      List.mapIdx_nil, List.getD]
  have hema : ema [⟨jsGetCandle [] 0, JSNum.fin 0⟩, ⟨jsGetCandle [] 1, JSNum.fin 0⟩] 5
      (fun c => c.macdLine) = .ok [JSNum.fin 0] := by
    norm_num [ema, emaGo, jsSlice, jsResolveIndex, List.take, JSNum.div_fin_fin]
  simp only [macd, hml, List.mapIdx_cons, List.mapIdx_nil]
  norm_num [hema, jsGetDJ, List.getD, JSNum.sub_fin_fin]
